import Mathlib

/-!
Verification of the `TaskModel` store of the TaskManger repository
(`src/script.js`).  The store holds an ordered list of tasks; every
mutation persists to local storage and notifies registered observers.
We embed the store operations as pure Lean functions over an explicit
state, with the environment-supplied values (generated id, current
timestamp) passed as arguments, and the persistence/notification side
effects reified in an `Effects` record.  Reference aliasing between the
live task array and the values handed to the presentation layer is
modelled separately with an explicit heap of array references.
-/

namespace TaskManger

/-- Task record, mirroring the object literal built in `addTask`
(`script.js` lines 42-49).  `completedAt` is absent (`none`) on a fresh
task; `toggleTask` later sets it to a timestamp or to `null`, both of
which JS code in this file only ever distinguishes by truthiness, so
`none` models both `undefined` and `null`. -/
structure Task where
  id : String
  text : String
  completed : Bool
  createdAt : String
  completedAt : Option String := none
  dueDate : Option String := none
  priority : String := "medium"
deriving Repr, DecidableEq

instance : Inhabited Task := ⟨{ id := "", text := "", completed := false, createdAt := "" }⟩

/-- The store state: the private `tasks` array of the `TaskModel`
closure (`script.js` line 5). -/
structure Store where
  tasks : List Task
deriving Repr, DecidableEq

/-- The side effects of one store operation: whether `saveTasks()` ran
and whether `notifyObservers()` ran. -/
structure Effects where
  saved : Bool
  notified : Bool
deriving Repr, DecidableEq

/-- No side effect happened. -/
def Effects.none : Effects := ⟨false, false⟩

/-- Both persistence and notification happened. -/
def Effects.both : Effects := ⟨true, true⟩

/-- Input object of `addTask` (`taskData`).  A JS object may lack the
`text` field entirely, hence `Option`; `dueDate` and `priority` go
through `||` defaulting in the source. -/
structure TaskData where
  text : Option String := none
  dueDate : Option String := none
  priority : Option String := none

/-- Caller-visible failures.  The source throws a plain
`new Error("Task text cannot be empty")` for empty text — the failure
the spec names `ValidationError` — and a `TypeError` arises from
calling `.trim()` on `undefined`. -/
inductive JsError where
  | typeError : JsError
  | error : String → JsError
deriving Repr, DecidableEq

/-- JS whitespace test used by `String.prototype.trim` (restricted to
the ASCII whitespace actually relevant here). -/
def isJsWhitespace (c : Char) : Bool :=
  c = ' ' || c = '\t' || c = '\n' || c = '\r'

/-- JS `String.prototype.trim`: strip leading and trailing whitespace. -/
def jsTrim (s : String) : String :=
  ⟨((s.data.dropWhile isJsWhitespace).reverse.dropWhile isJsWhitespace).reverse⟩

/-- JS `v || null` on an optional string: the empty string and
`undefined` are falsy and collapse to `null` (`none`). -/
def jsOrNull : Option String → Option String
  | some s => if s = "" then none else some s
  | none => none

/-- JS `v || d` defaulting on an optional string. -/
def jsOrDefault (v : Option String) (d : String) : String :=
  match v with
  | some s => if s = "" then d else s
  | none => d

/-- JS `Array.prototype.findIndex`, with `none` for `-1`. -/
def findIndex? (p : Task → Bool) : List Task → Option Nat
  | [] => none
  | t :: ts => if p t then some 0 else (findIndex? p ts).map (· + 1)

/-- JS `splice(i, 1)`: remove the element at index `i` (no-op past the
end). -/
def removeAt : List Task → Nat → List Task
  | [], _ => []
  | _ :: ts, 0 => ts
  | t :: ts, n + 1 => t :: removeAt ts n

/-- JS `splice(i, 0, x)`: insert `x` at index `i`, appending when `i`
is past the end (JS clamps the start index to the length). -/
def insertAt : List Task → Nat → Task → List Task
  | l, 0, x => x :: l
  | [], _ + 1, x => [x]
  | t :: ts, n + 1, x => t :: insertAt ts n x

/-- The result of `toggleTask` on a found task (`script.js` lines
65-66): flip `completed`, then set `completedAt` from the new value. -/
def toggled (t : Task) (now : String) : Task :=
  { t with
    completed := !t.completed
    completedAt := if !t.completed then some now else none }

/-- Mutate the first task matching `taskId` (JS `find` returns the
first match and the code mutates it in place). -/
def toggleFirst : List Task → String → String → List Task
  | [], _, _ => []
  | t :: ts, taskId, now =>
    if t.id = taskId then toggled t now :: ts
    else t :: toggleFirst ts taskId now

/-- TaskModel `getAllTasks` (`script.js` lines 24-26): a snapshot of
the sequence (the copying itself is studied in the heap model below). -/
def getAllTasks (s : Store) : List Task := s.tasks

/-- TaskModel `getFilteredTasks` (`script.js` lines 29-38). -/
def getFilteredTasks (s : Store) (filter : String) : List Task :=
  match filter with
  | "completed" => s.tasks.filter (fun task => task.completed)
  | "pending" => s.tasks.filter (fun task => !task.completed)
  | _ => s.tasks

/-- TaskModel `addTask` (`script.js` lines 41-59).  `freshId` is the
value produced by `generateId()` (clock plus random suffix) and `now`
the `createdAt` timestamp; both are environment inputs.  An `error`
result models the JS throw: the caller observes the original store and
no effect. -/
def addTask (s : Store) (taskData : TaskData) (freshId now : String) :
    Except JsError (Task × Store × Effects) :=
  match taskData.text with
  | none => .error .typeError
  | some rawText =>
    let newTask : Task :=
      { id := freshId
        text := jsTrim rawText
        completed := false
        createdAt := now
        completedAt := none
        dueDate := jsOrNull taskData.dueDate
        priority := jsOrDefault taskData.priority "medium" }
    if newTask.text = "" then
      .error (.error "Task text cannot be empty")
    else
      .ok (newTask, ⟨newTask :: s.tasks⟩, Effects.both)

/-- The store state after an `addTask` call: on a throw the mutation
never happened, so the caller still holds `s`. -/
def addStateAfter (s : Store) : Except JsError (Task × Store × Effects) → Store
  | .ok (_, s', _) => s'
  | .error _ => s

/-- The effects of an `addTask` call: a throw happens before
`saveTasks` and `notifyObservers`. -/
def addEffects : Except JsError (Task × Store × Effects) → Effects
  | .ok (_, _, eff) => eff
  | .error _ => Effects.none

/-- TaskModel `toggleTask` (`script.js` lines 62-70). -/
def toggleTask (s : Store) (taskId now : String) : Store × Effects :=
  match findIndex? (fun t => t.id = taskId) s.tasks with
  | some _ => (⟨toggleFirst s.tasks taskId now⟩, Effects.both)
  | none => (s, Effects.none)

/-- TaskModel `deleteTask` (`script.js` lines 73-83): filter out every
task with the id, report whether the length changed. -/
def deleteTask (s : Store) (taskId : String) : Bool × Store × Effects :=
  let remaining := s.tasks.filter (fun t => t.id ≠ taskId)
  if remaining.length ≠ s.tasks.length then
    (true, ⟨remaining⟩, Effects.both)
  else
    (false, ⟨remaining⟩, Effects.none)

/-- TaskModel `reorderTasks` (`script.js` lines 86-98): both indices
are computed on the original sequence, the dragged task is spliced out,
then inserted at the original target index of the post-removal
sequence.  The inner `none` branch is unreachable: a found index is in
bounds. -/
def reorderTasks (s : Store) (draggedTaskId targetTaskId : String) :
    Bool × Store × Effects :=
  match findIndex? (fun t => t.id = draggedTaskId) s.tasks,
        findIndex? (fun t => t.id = targetTaskId) s.tasks with
  | some draggedIndex, some targetIndex =>
    match s.tasks.get? draggedIndex with
    | some draggedTask =>
      (true, ⟨insertAt (removeAt s.tasks draggedIndex) targetIndex draggedTask⟩,
        Effects.both)
    | none => (false, s, Effects.none)
  | _, _ => (false, s, Effects.none)

/-- TaskModel `getStats` (`script.js` lines 101-107). -/
structure Stats where
  total : Nat
  completed : Nat
  pending : Nat
deriving Repr, DecidableEq

/-- TaskModel `getStats` (`script.js` lines 101-107). -/
def getStats (s : Store) : Stats :=
  let total := s.tasks.length
  let completed := (s.tasks.filter (fun t => t.completed)).length
  { total := total, completed := completed, pending := total - completed }

/-! ### Helper lemmas on the list primitives -/

theorem findIndex?_lt_length {p : Task → Bool} :
    ∀ {l : List Task} {i : Nat}, findIndex? p l = some i → i < l.length := by
  intro l
  induction l with
  | nil => intro i h; simp [findIndex?] at h
  | cons t ts ih =>
    intro i h
    simp only [findIndex?] at h
    by_cases hp : p t
    · simp [hp] at h
      simp only [List.length_cons]
      omega
    · simp [hp] at h
      obtain ⟨j, hj, rfl⟩ := h
      have := ih hj
      simp only [List.length_cons]
      omega

theorem findIndex?_get? {p : Task → Bool} :
    ∀ {l : List Task} {i : Nat}, findIndex? p l = some i →
      ∃ t, l.get? i = some t ∧ p t = true := by
  intro l
  induction l with
  | nil => intro i h; simp [findIndex?] at h
  | cons t ts ih =>
    intro i h
    simp only [findIndex?] at h
    by_cases hp : p t
    · simp [hp] at h
      subst h
      exact ⟨t, rfl, hp⟩
    · simp [hp] at h
      obtain ⟨j, hj, rfl⟩ := h
      obtain ⟨u, hu, hpu⟩ := ih hj
      exact ⟨u, by simpa using hu, hpu⟩

theorem findIndex?_eq_none_iff {p : Task → Bool} {l : List Task} :
    findIndex? p l = none ↔ ∀ t ∈ l, p t = false := by
  induction l with
  | nil => simp [findIndex?]
  | cons t ts ih =>
    by_cases hp : p t
    · simp [findIndex?, hp]
    · simp [findIndex?, hp, ih]

theorem removeAt_length :
    ∀ {l : List Task} {i : Nat}, i < l.length → (removeAt l i).length + 1 = l.length := by
  intro l
  induction l with
  | nil => intro i h; simp at h
  | cons t ts ih =>
    intro i h
    match i with
    | 0 => simp [removeAt]
    | n + 1 =>
      simp only [removeAt, List.length_cons]
      have := @ih n (by simp at h; omega)
      omega

theorem insertAt_removeAt_self :
    ∀ {l : List Task} {i : Nat} {x : Task}, l.get? i = some x →
      insertAt (removeAt l i) i x = l := by
  intro l
  induction l with
  | nil => intro i x h; simp at h
  | cons t ts ih =>
    intro i x h
    match i with
    | 0 =>
      simp at h
      simp [removeAt, insertAt, h]
    | n + 1 =>
      simp only [List.get?_cons_succ] at h
      have hih := ih h
      cases hr : removeAt ts n with
      | nil =>
        rw [hr] at hih
        simp only [removeAt, hr, insertAt]
        rw [hih]
      | cons u us =>
        rw [hr] at hih
        simp only [removeAt, hr, insertAt]
        rw [hih]

theorem removeAt_insertAt :
    ∀ {l : List Task} {i : Nat} {x : Task}, i ≤ l.length →
      removeAt (insertAt l i x) i = l := by
  intro l
  induction l with
  | nil =>
    intro i x h
    have : i = 0 := Nat.le_zero.mp (by simpa using h)
    subst this
    simp [insertAt, removeAt]
  | cons t ts ih =>
    intro i x h
    match i with
    | 0 => simp [insertAt, removeAt]
    | n + 1 =>
      simp only [insertAt, removeAt]
      exact congrArg (t :: ·) (ih (by simp at h; omega))

theorem get?_insertAt_self :
    ∀ {l : List Task} {i : Nat} {x : Task}, i ≤ l.length →
      (insertAt l i x).get? i = some x := by
  intro l
  induction l with
  | nil =>
    intro i x h
    have : i = 0 := Nat.le_zero.mp (by simpa using h)
    subst this
    simp [insertAt]
  | cons t ts ih =>
    intro i x h
    match i with
    | 0 => simp [insertAt]
    | n + 1 =>
      simp only [insertAt, List.get?_cons_succ]
      exact ih (by simp at h; omega)

theorem insertAt_perm :
    ∀ (l : List Task) (i : Nat) (x : Task), (insertAt l i x).Perm (x :: l) := by
  intro l
  induction l with
  | nil =>
    intro i x
    match i with
    | 0 => simp [insertAt]
    | n + 1 => simp [insertAt]
  | cons t ts ih =>
    intro i x
    match i with
    | 0 => simp [insertAt]
    | n + 1 =>
      have h1 : insertAt (t :: ts) (n + 1) x = t :: insertAt ts n x := by simp [insertAt]
      rw [h1]
      exact ((ih n x).cons t).trans (List.Perm.swap x t ts)

theorem get?_removeAt_perm :
    ∀ {l : List Task} {i : Nat} {x : Task}, l.get? i = some x →
      l.Perm (x :: removeAt l i) := by
  intro l
  induction l with
  | nil => intro i x h; simp at h
  | cons t ts ih =>
    intro i x h
    match i with
    | 0 =>
      simp at h
      simp [removeAt, h]
    | n + 1 =>
      simp only [List.get?_cons_succ] at h
      have h2 : removeAt (t :: ts) (n + 1) = t :: removeAt ts n := by simp [removeAt]
      rw [h2]
      exact ((ih h).cons t).trans (List.Perm.swap x t _)

theorem toggleFirst_length :
    ∀ (l : List Task) (taskId now : String), (toggleFirst l taskId now).length = l.length := by
  intro l taskId now
  induction l with
  | nil => rfl
  | cons t ts ih =>
    by_cases hp : t.id = taskId
    · simp [toggleFirst, hp]
    · simp [toggleFirst, hp, ih]

theorem toggleFirst_spec :
    ∀ {l : List Task} {taskId now : String} {i : Nat},
      findIndex? (fun t => t.id = taskId) l = some i →
      (∃ t, l.get? i = some t ∧
        (toggleFirst l taskId now).get? i = some (toggled t now)) ∧
      (∀ j, j ≠ i → (toggleFirst l taskId now).get? j = l.get? j) := by
  intro l
  induction l with
  | nil => intro taskId now i h; simp [findIndex?] at h
  | cons t ts ih =>
    intro taskId now i h
    simp only [findIndex?] at h
    by_cases hp : t.id = taskId
    · simp [hp] at h
      subst h
      refine ⟨⟨t, rfl, by simp [toggleFirst, hp]⟩, ?_⟩
      intro j hj
      match j with
      | 0 => exact absurd rfl hj
      | m + 1 => simp [toggleFirst, hp]
    · simp [hp] at h
      obtain ⟨j, hj, rfl⟩ := h
      obtain ⟨⟨u, hu, hu'⟩, hrest⟩ := @ih taskId now j hj
      refine ⟨⟨u, by simpa using hu, by simp [toggleFirst, hp]; simpa using hu'⟩, ?_⟩
      intro k hk
      match k with
      | 0 => simp [toggleFirst, hp]
      | m + 1 =>
        simp only [toggleFirst, if_neg hp, List.get?_cons_succ]
        exact hrest m (by omega)

/-- Sample task used in concrete witness instantiations. -/
def taskA : Task :=
  { id := "idA", text := "Buy milk", completed := false, createdAt := "T0" }

/-- A second, completed sample task for witnesses. -/
def taskB : Task :=
  { id := "idB", text := "Walk dog", completed := true, createdAt := "T0",
    completedAt := some "T1" }

/-- A third sample task for witnesses. -/
def taskC : Task :=
  { id := "idC", text := "Water plants", completed := false, createdAt := "T0" }

theorem findIndex?_toggleFirst :
    ∀ {l : List Task} {taskId now : String} {i : Nat},
      findIndex? (fun t => t.id = taskId) l = some i →
      findIndex? (fun t => t.id = taskId) (toggleFirst l taskId now) = some i := by
  intro l
  induction l with
  | nil => intro taskId now i h; simp [findIndex?] at h
  | cons t ts ih =>
    intro taskId now i h
    simp only [findIndex?] at h
    by_cases hp : t.id = taskId
    · simp [hp] at h
      subst h
      simp [toggleFirst, hp, findIndex?, toggled]
    · simp [hp] at h
      obtain ⟨j, hj, rfl⟩ := h
      simp [toggleFirst, hp, findIndex?, ih hj]

theorem toggled_toggled (t : Task) (t1 t2 : String) :
    toggled (toggled t t1) t2 =
      { t with completedAt := if t.completed then some t2 else none } := by
  simp [toggled]

theorem filter_id_ne_of_not_mem (l : List Task) (taskId : String)
    (h : ∀ t ∈ l, t.id ≠ taskId) : l.filter (fun t => t.id ≠ taskId) = l := by
  rw [List.filter_eq_self]
  intro a ha
  simpa using h a ha

theorem filter_id_ne_length_of_mem (l : List Task) (taskId : String)
    (hnodup : (l.map Task.id).Nodup) (hmem : ∃ t ∈ l, t.id = taskId) :
    (l.filter (fun t => t.id ≠ taskId)).length + 1 = l.length := by
  induction l with
  | nil => simp at hmem
  | cons t ts ih =>
    simp only [List.map_cons, List.nodup_cons] at hnodup
    by_cases hp : t.id = taskId
    · have hts : ts.filter (fun u => u.id ≠ taskId) = ts := by
        refine filter_id_ne_of_not_mem ts taskId ?_
        intro u hu he
        exact hnodup.1 (by rw [hp, ← he]; exact List.mem_map_of_mem Task.id hu)
      have hdrop : List.filter (fun u => decide (u.id ≠ taskId)) (t :: ts)
          = List.filter (fun u => decide (u.id ≠ taskId)) ts := by
        simp [List.filter_cons, hp]
      show (List.filter (fun u => decide (u.id ≠ taskId)) (t :: ts)).length + 1
          = (t :: ts).length
      rw [hdrop, hts]
      simp
    · obtain ⟨u, hu, hue⟩ := hmem
      rcases List.mem_cons.mp hu with rfl | hu'
      · exact absurd hue hp
      · have := ih hnodup.2 ⟨u, hu', hue⟩
        simp only [List.filter_cons, decide_eq_true_eq]
        rw [if_pos (by simpa using hp)]
        simpa using this

/-! ### Heap model for array aliasing

JS arrays are references into a heap.  `Heap.cells` maps a reference
(an index) to the array's contents; `StoreH.tasksRef` is the reference
held in the module-private `tasks` variable.  `getAllTasks` evaluates
`[...tasks]`, allocating a fresh array; `notifyObservers` evaluates
`callback(tasks)`, handing each observer the live reference itself
(`script.js` line 10). -/

structure Heap where
  cells : List (List Task)
deriving Repr, DecidableEq

/-- Dereference an array reference. -/
def Heap.read (h : Heap) (r : Nat) : List Task := h.cells.getD r []

/-- Overwrite the contents of an existing array in place (model of a
mutation such as `arr.length = 0` or `arr.push(...)` performed by
whoever holds the reference `r`). -/
def Heap.write (h : Heap) (r : Nat) (v : List Task) : Heap := ⟨h.cells.set r v⟩

/-- Allocate a fresh array holding `v`; returns the new heap and the
fresh reference. -/
def Heap.alloc (h : Heap) (v : List Task) : Heap × Nat :=
  (⟨h.cells ++ [v]⟩, h.cells.length)

/-- Store state in the heap model: the heap plus the reference held by
the private `tasks` variable. -/
structure StoreH where
  heap : Heap
  tasksRef : Nat
deriving Repr, DecidableEq

/-- `getAllTasks` in the heap model (`script.js` line 25,
`return [...tasks]`): allocate a fresh array with a copy of the live
contents and return its reference. -/
def getAllTasksH (s : StoreH) : StoreH × Nat :=
  let p := s.heap.alloc (s.heap.read s.tasksRef)
  ({ heap := p.1, tasksRef := s.tasksRef }, p.2)

/-- The argument `notifyObservers` passes to every observer callback
(`script.js` line 10, `callback(tasks)`): the live reference itself. -/
def observerArg (s : StoreH) : Nat := s.tasksRef

theorem getD_append_length (l : List (List Task)) (v : List Task) :
    (l ++ [v]).getD l.length [] = v := by
  induction l with
  | nil => rfl
  | cons t ts ih => simp only [List.cons_append, List.length_cons, List.getD_cons_succ, ih]

theorem getD_append_lt (l : List (List Task)) (v : List Task) :
    ∀ {i : Nat}, i < l.length → (l ++ [v]).getD i [] = l.getD i [] := by
  induction l with
  | nil => intro i h; simp at h
  | cons t ts ih =>
    intro i h
    match i with
    | 0 => rfl
    | n + 1 =>
      simp only [List.cons_append, List.getD_cons_succ]
      exact ih (by simpa using Nat.lt_of_succ_lt_succ h)

theorem getD_set_ne (l : List (List Task)) (v : List Task) :
    ∀ {i j : Nat}, i ≠ j → (l.set i v).getD j [] = l.getD j [] := by
  induction l with
  | nil => intro i j _; simp
  | cons t ts ih =>
    intro i j hne
    match i, j with
    | 0, 0 => exact absurd rfl hne
    | 0, m + 1 => simp
    | n + 1, 0 => simp
    | n + 1, m + 1 =>
      simp only [List.set_cons_succ, List.getD_cons_succ]
      exact ih (by omega)

/-! ### Claim theorems -/

/-- C1: for every input whose text is non-empty after trimming,
`addTask` creates a task with `completed = false` and an id distinct
from the id of every task already in the store (the generated id being
fresh is the environment hypothesis `hfresh`, reflecting
`generateId()`), inserts it at the front of the sequence — so
`getAllTasks` returns it first with all previous tasks after it in
their prior order — persists, notifies observers, and returns the
created task. -/
theorem addTask_success_spec (s : Store) (d : TaskData) (raw freshId now : String)
    (htext : d.text = some raw) (hne : jsTrim raw ≠ "")
    (hfresh : freshId ∉ (getAllTasks s).map Task.id) :
    ∃ t s' eff,
      addTask s d freshId now = .ok (t, s', eff) ∧
      t.completed = false ∧
      t.id = freshId ∧
      t.id ∉ (getAllTasks s).map Task.id ∧
      getAllTasks s' = t :: getAllTasks s ∧
      eff.saved = true ∧ eff.notified = true := by
  have h : addTask s d freshId now =
      .ok ({ id := freshId, text := jsTrim raw, completed := false,
             createdAt := now, completedAt := none,
             dueDate := jsOrNull d.dueDate,
             priority := jsOrDefault d.priority "medium" },
           ⟨{ id := freshId, text := jsTrim raw, completed := false,
              createdAt := now, completedAt := none,
              dueDate := jsOrNull d.dueDate,
              priority := jsOrDefault d.priority "medium" } :: s.tasks⟩,
           Effects.both) := by
    simp [addTask, htext, hne]
  exact ⟨_, _, _, h, rfl, rfl, hfresh, rfl, rfl, rfl⟩

/-- Witness for C1 at a concrete store and input. -/
theorem addTask_success_spec_witness :
    ∃ t s' eff,
      addTask ⟨[taskA]⟩ ⟨some " Walk dog ", Option.none, Option.none⟩ "idB" "T2"
        = .ok (t, s', eff) ∧
      t.completed = false ∧
      t.id = "idB" ∧
      t.id ∉ (getAllTasks ⟨[taskA]⟩).map Task.id ∧
      getAllTasks s' = t :: getAllTasks ⟨[taskA]⟩ ∧
      eff.saved = true ∧ eff.notified = true :=
  addTask_success_spec ⟨[taskA]⟩ ⟨some " Walk dog ", Option.none, Option.none⟩
    " Walk dog " "idB" "T2" rfl (by decide) (by decide)

/-- C2: for every input whose text is empty after trimming, `addTask`
throws the validation error (`new Error("Task text cannot be empty")`,
the failure the spec names `ValidationError`), and mutates nothing:
the caller's store is unchanged, nothing is persisted and no observer
is notified. -/
theorem addTask_empty_text_rejected (s : Store) (d : TaskData) (raw freshId now : String)
    (htext : d.text = some raw) (he : jsTrim raw = "") :
    addTask s d freshId now = .error (.error "Task text cannot be empty") ∧
    addStateAfter s (addTask s d freshId now) = s ∧
    getAllTasks (addStateAfter s (addTask s d freshId now)) = getAllTasks s ∧
    addEffects (addTask s d freshId now) = Effects.none := by
  have h : addTask s d freshId now = .error (.error "Task text cannot be empty") := by
    simp [addTask, htext, he]
  exact ⟨h, by rw [h]; rfl, by rw [h]; rfl, by rw [h]; rfl⟩

/-- Witness for C2: all-whitespace text on a one-task store. -/
theorem addTask_empty_text_rejected_witness :
    addTask ⟨[taskA]⟩ ⟨some "  ", Option.none, Option.none⟩ "idB" "T2"
      = .error (.error "Task text cannot be empty") ∧
    addStateAfter ⟨[taskA]⟩
      (addTask ⟨[taskA]⟩ ⟨some "  ", Option.none, Option.none⟩ "idB" "T2") = ⟨[taskA]⟩ ∧
    getAllTasks (addStateAfter ⟨[taskA]⟩
      (addTask ⟨[taskA]⟩ ⟨some "  ", Option.none, Option.none⟩ "idB" "T2"))
      = getAllTasks ⟨[taskA]⟩ ∧
    addEffects (addTask ⟨[taskA]⟩ ⟨some "  ", Option.none, Option.none⟩ "idB" "T2")
      = Effects.none :=
  addTask_empty_text_rejected ⟨[taskA]⟩ ⟨some "  ", Option.none, Option.none⟩
    "  " "idB" "T2" rfl (by decide)

/-- C10: for every input object with no `text` field, `addTask` throws
a `TypeError` (from `taskData.text.trim()` on `undefined`) — not the
documented empty-text validation error — and the store is unchanged
with no persistence and no notification. -/
theorem addTask_missing_text_typeError (s : Store) (d : TaskData) (freshId now : String)
    (htext : d.text = Option.none) :
    addTask s d freshId now = .error .typeError ∧
    addTask s d freshId now ≠ .error (.error "Task text cannot be empty") ∧
    addStateAfter s (addTask s d freshId now) = s ∧
    getAllTasks (addStateAfter s (addTask s d freshId now)) = getAllTasks s ∧
    addEffects (addTask s d freshId now) = Effects.none := by
  have h : addTask s d freshId now = .error .typeError := by
    simp [addTask, htext]
  refine ⟨h, by rw [h]; simp, by rw [h]; rfl, by rw [h]; rfl, by rw [h]; rfl⟩

/-- Witness for C10: an input object with no `text` field. -/
theorem addTask_missing_text_typeError_witness :
    addTask ⟨[taskA]⟩ ⟨Option.none, Option.none, Option.none⟩ "idB" "T2"
      = .error .typeError ∧
    addTask ⟨[taskA]⟩ ⟨Option.none, Option.none, Option.none⟩ "idB" "T2"
      ≠ .error (.error "Task text cannot be empty") ∧
    addStateAfter ⟨[taskA]⟩
      (addTask ⟨[taskA]⟩ ⟨Option.none, Option.none, Option.none⟩ "idB" "T2") = ⟨[taskA]⟩ ∧
    getAllTasks (addStateAfter ⟨[taskA]⟩
      (addTask ⟨[taskA]⟩ ⟨Option.none, Option.none, Option.none⟩ "idB" "T2"))
      = getAllTasks ⟨[taskA]⟩ ∧
    addEffects (addTask ⟨[taskA]⟩ ⟨Option.none, Option.none, Option.none⟩ "idB" "T2")
      = Effects.none :=
  addTask_missing_text_typeError ⟨[taskA]⟩ ⟨Option.none, Option.none, Option.none⟩
    "idB" "T2" rfl

/-- C9: for every id not carried by any task in the store, `toggleTask`
is a silent no-op: no error, no notification, and `getAllTasks` and
`getStats` are unchanged. -/
theorem toggleTask_missing_noop (s : Store) (taskId now : String)
    (h : ∀ t ∈ s.tasks, t.id ≠ taskId) :
    toggleTask s taskId now = (s, Effects.none) ∧
    getAllTasks (toggleTask s taskId now).1 = getAllTasks s ∧
    getStats (toggleTask s taskId now).1 = getStats s := by
  have hf : findIndex? (fun t => t.id = taskId) s.tasks = none :=
    findIndex?_eq_none_iff.mpr (by intro t ht; simpa using h t ht)
  have h1 : toggleTask s taskId now = (s, Effects.none) := by
    simp [toggleTask, hf]
  exact ⟨h1, by rw [h1], by rw [h1]⟩

/-- Witness for C9 on a concrete store and a missing id. -/
theorem toggleTask_missing_noop_witness :
    toggleTask ⟨[taskA, taskB]⟩ "nonexistent" "T2" = (⟨[taskA, taskB]⟩, Effects.none) ∧
    getAllTasks (toggleTask ⟨[taskA, taskB]⟩ "nonexistent" "T2").1
      = getAllTasks ⟨[taskA, taskB]⟩ ∧
    getStats (toggleTask ⟨[taskA, taskB]⟩ "nonexistent" "T2").1
      = getStats ⟨[taskA, taskB]⟩ :=
  toggleTask_missing_noop ⟨[taskA, taskB]⟩ "nonexistent" "T2" (by decide)

/-- C7: under the store's id-uniqueness invariant, `deleteTask` on a
present id removes exactly that task — the count drops by exactly one,
the remaining tasks keep their relative order — persists, notifies and
returns true; on a missing id it returns false, changes nothing,
notifies no one, and never throws (the operation is total). -/
theorem deleteTask_spec (s : Store) (taskId : String)
    (hnodup : (s.tasks.map Task.id).Nodup) :
    ((∃ t ∈ s.tasks, t.id = taskId) →
      ∃ s', deleteTask s taskId = (true, s', Effects.both) ∧
        s'.tasks = s.tasks.filter (fun t => t.id ≠ taskId) ∧
        s'.tasks.length + 1 = s.tasks.length ∧
        s'.tasks.Sublist s.tasks ∧
        (∀ t ∈ s.tasks, t.id ≠ taskId → t ∈ s'.tasks) ∧
        (∀ t ∈ s'.tasks, t.id ≠ taskId)) ∧
    ((∀ t ∈ s.tasks, t.id ≠ taskId) →
      deleteTask s taskId = (false, s, Effects.none)) := by
  constructor
  · intro hmem
    have hlen := filter_id_ne_length_of_mem s.tasks taskId hnodup hmem
    have hcond : (s.tasks.filter (fun t => t.id ≠ taskId)).length ≠ s.tasks.length := by
      omega
    refine ⟨⟨s.tasks.filter (fun t => t.id ≠ taskId)⟩, ?_, rfl, hlen,
        List.filter_sublist s.tasks, ?_, ?_⟩
    · simp only [deleteTask]
      rw [if_pos hcond]
    · intro t ht hne
      exact List.mem_filter.mpr ⟨ht, by simpa using hne⟩
    · intro t ht
      simpa using (List.mem_filter.mp ht).2
  · intro hnone
    have heq : s.tasks.filter (fun t => t.id ≠ taskId) = s.tasks :=
      filter_id_ne_of_not_mem s.tasks taskId hnone
    simp only [deleteTask, heq]
    rw [if_neg (by simp)]

/-- Witness for C7: deleting a present id and a missing id on a
concrete two-task store. -/
theorem deleteTask_spec_witness :
    (∃ s', deleteTask ⟨[taskA, taskB]⟩ "idA" = (true, s', Effects.both) ∧
      s'.tasks = [taskA, taskB].filter (fun t => t.id ≠ "idA") ∧
      s'.tasks.length + 1 = [taskA, taskB].length ∧
      s'.tasks.Sublist [taskA, taskB] ∧
      (∀ t ∈ [taskA, taskB], t.id ≠ "idA" → t ∈ s'.tasks) ∧
      (∀ t ∈ s'.tasks, t.id ≠ "idA")) ∧
    deleteTask ⟨[taskA, taskB]⟩ "zzz" = (false, ⟨[taskA, taskB]⟩, Effects.none) :=
  ⟨(deleteTask_spec ⟨[taskA, taskB]⟩ "idA" (by decide)).1
      ⟨taskA, by decide, by decide⟩,
    (deleteTask_spec ⟨[taskA, taskB]⟩ "zzz" (by decide)).2 (by decide)⟩

/-- C8: `getFilteredTasks "pending"` returns exactly the tasks with
`completed = false` and `getFilteredTasks "completed"` exactly those
with `completed = true`, each preserving the relative order of the
underlying sequence (sublist); the two are disjoint and together are a
permutation of `getAllTasks`; any unrecognized filter string returns
the same sequence as `getAllTasks` without error. -/
theorem getFilteredTasks_spec (s : Store) (f : String) :
    (∀ t, t ∈ getFilteredTasks s "pending" ↔ t ∈ getAllTasks s ∧ t.completed = false) ∧
    (∀ t, t ∈ getFilteredTasks s "completed" ↔ t ∈ getAllTasks s ∧ t.completed = true) ∧
    (getFilteredTasks s "pending").Sublist (getAllTasks s) ∧
    (getFilteredTasks s "completed").Sublist (getAllTasks s) ∧
    (∀ t, t ∈ getFilteredTasks s "pending" → t ∉ getFilteredTasks s "completed") ∧
    (getFilteredTasks s "completed" ++ getFilteredTasks s "pending").Perm (getAllTasks s) ∧
    (f ≠ "completed" → f ≠ "pending" → getFilteredTasks s f = getAllTasks s) := by
  have hpend : getFilteredTasks s "pending" = s.tasks.filter (fun t => !t.completed) := rfl
  have hcomp : getFilteredTasks s "completed" = s.tasks.filter (fun t => t.completed) := rfl
  refine ⟨?_, ?_, ?_, ?_, ?_, ?_, ?_⟩
  · intro t
    rw [hpend]
    simp [getAllTasks, List.mem_filter]
  · intro t
    rw [hcomp]
    simp [getAllTasks, List.mem_filter]
  · rw [hpend]; exact List.filter_sublist s.tasks
  · rw [hcomp]; exact List.filter_sublist s.tasks
  · intro t hp hc
    rw [hpend] at hp
    rw [hcomp] at hc
    have h1 := (List.mem_filter.mp hp).2
    have h2 := (List.mem_filter.mp hc).2
    simp at h1 h2
    rw [h2] at h1
    exact absurd h1 (by simp)
  · rw [hpend, hcomp]
    exact List.filter_append_perm (fun t => t.completed) s.tasks
  · intro h1 h2
    unfold getFilteredTasks
    split
    · exact absurd rfl h1
    · exact absurd rfl h2
    · rfl

/-- Witness for C8: the final conjunct instantiated at an unrecognized
filter string on a concrete store. -/
theorem getFilteredTasks_spec_witness :
    getFilteredTasks ⟨[taskA, taskB]⟩ "all" = getAllTasks ⟨[taskA, taskB]⟩ :=
  (getFilteredTasks_spec ⟨[taskA, taskB]⟩ "all").2.2.2.2.2.2 (by decide) (by decide)

/-- C6: for every task present in the store (the first task carrying
the toggled id, at index `i`), calling `toggleTask` twice restores the
task's `completed` flag exactly, and restores its `completedAt` state
in the sense of the claim: it is a timestamp when `completed` is true
and absent when `completed` is false (so its presence matches the
original whenever the original satisfied the store invariant); all
other positions are untouched. -/
theorem toggleTask_twice_restores (s : Store) (taskId t1 t2 : String) (i : Nat)
    (hfind : findIndex? (fun t => t.id = taskId) s.tasks = some i) :
    ∃ task task',
      s.tasks.get? i = some task ∧
      ((toggleTask (toggleTask s taskId t1).1 taskId t2).1).tasks.get? i = some task' ∧
      task'.completed = task.completed ∧
      task'.completedAt = (if task.completed then some t2 else Option.none) ∧
      (task'.completedAt.isSome = task'.completed) ∧
      (task.completedAt.isSome = task.completed →
        task'.completedAt.isSome = task.completedAt.isSome) ∧
      (∀ j, j ≠ i →
        ((toggleTask (toggleTask s taskId t1).1 taskId t2).1).tasks.get? j
          = s.tasks.get? j) := by
  obtain ⟨⟨task, htask, htask1⟩, hrest1⟩ :=
    @toggleFirst_spec s.tasks taskId t1 i hfind
  have hfind1 := @findIndex?_toggleFirst s.tasks taskId t1 i hfind
  obtain ⟨⟨u, hu, hu2⟩, hrest2⟩ :=
    @toggleFirst_spec (toggleFirst s.tasks taskId t1) taskId t2 i hfind1
  have hs1 : (toggleTask s taskId t1).1 = ⟨toggleFirst s.tasks taskId t1⟩ := by
    simp [toggleTask, hfind]
  have hs2 : ((toggleTask (toggleTask s taskId t1).1 taskId t2).1).tasks
      = toggleFirst (toggleFirst s.tasks taskId t1) taskId t2 := by
    rw [hs1]
    simp [toggleTask, hfind1]
  have huv : u = toggled task t1 := by
    rw [htask1] at hu
    exact (Option.some_inj.mp hu).symm
  refine ⟨task, toggled u t2, htask, by rw [hs2]; exact hu2, ?_, ?_, ?_, ?_, ?_⟩
  · rw [huv]
    simp [toggled]
  · rw [huv, toggled_toggled]
  · rw [huv, toggled_toggled]
    cases hc : task.completed <;> simp [hc]
  · intro hinv
    rw [huv, toggled_toggled]
    cases hc : task.completed <;> simp [hc, hinv, hc.symm ▸ hinv]
  · intro j hj
    rw [hs2, hrest2 j hj, hrest1 j hj]

/-- Witness for C6 on a concrete one-task store with a completed task. -/
theorem toggleTask_twice_restores_witness :
    ∃ task task',
      [taskB].get? 0 = some task ∧
      ((toggleTask (toggleTask ⟨[taskB]⟩ "idB" "T2").1 "idB" "T3").1).tasks.get? 0
        = some task' ∧
      task'.completed = task.completed ∧
      task'.completedAt = (if task.completed then some "T3" else Option.none) ∧
      (task'.completedAt.isSome = task'.completed) ∧
      (task.completedAt.isSome = task.completed →
        task'.completedAt.isSome = task.completedAt.isSome) ∧
      (∀ j, j ≠ 0 →
        ((toggleTask (toggleTask ⟨[taskB]⟩ "idB" "T2").1 "idB" "T3").1).tasks.get? j
          = [taskB].get? j) :=
  toggleTask_twice_restores ⟨[taskB]⟩ "idB" "T2" "T3" 0 (by decide)

/-- C4 counterexample: the claim says `reorderTasks a a` returns false
with no notification, but on a store containing a task with id `idA`
the call `reorderTasks "idA" "idA"` returns true, and persists and
notifies, even though the sequence is unchanged. -/
theorem reorderTasks_self_returns_true :
    reorderTasks ⟨[taskA]⟩ "idA" "idA" = (true, ⟨[taskA]⟩, Effects.both) := by
  rfl

/-- C4 amended: `reorderTasks a b` with either id missing returns false
and leaves everything unchanged with no persistence and no
notification; but when `a = b` and the id is present, it returns true
and leaves the sequence unchanged while still persisting and notifying
observers. -/
theorem reorderTasks_noop_cases (s : Store) (a b : String) :
    ((findIndex? (fun t => t.id = a) s.tasks = Option.none ∨
      findIndex? (fun t => t.id = b) s.tasks = Option.none) →
      reorderTasks s a b = (false, s, Effects.none)) ∧
    (∀ i, a = b → findIndex? (fun t => t.id = a) s.tasks = some i →
      reorderTasks s a b = (true, s, Effects.both)) := by
  constructor
  · intro h
    rcases h with hd | hb
    · rcases hx : findIndex? (fun t => t.id = b) s.tasks with _ | ti <;>
        simp [reorderTasks, hd, hx]
    · rcases hx : findIndex? (fun t => t.id = a) s.tasks with _ | di <;>
        simp [reorderTasks, hb, hx]
  · intro i hab hfind
    subst hab
    obtain ⟨x, hget, _⟩ := findIndex?_get? hfind
    have hins := insertAt_removeAt_self hget
    have hget' : s.tasks[i]? = some x := by
      rw [← List.get?_eq_getElem?]
      exact hget
    simp [reorderTasks, hfind, hget', hins]

/-- Witness for C4 amended: a missing id and a present repeated id on
concrete stores. -/
theorem reorderTasks_noop_cases_witness :
    reorderTasks ⟨[taskA]⟩ "zzz" "idA" = (false, ⟨[taskA]⟩, Effects.none) ∧
    reorderTasks ⟨[taskA, taskB]⟩ "idB" "idB" = (true, ⟨[taskA, taskB]⟩, Effects.both) :=
  ⟨(reorderTasks_noop_cases ⟨[taskA]⟩ "zzz" "idA").1 (Or.inl (by decide)),
    (reorderTasks_noop_cases ⟨[taskA, taskB]⟩ "idB" "idB").2 1 rfl (by decide)⟩

/-- C5: for distinct ids both present, `reorderTasks` removes the
dragged task (first occurrence, index `di`) and reinserts it at the
index `ti` the target occupied in the original pre-removal sequence;
the dragged task ends up at index `ti` of the result, the other tasks
keep their relative order (removing the reinserted occurrence gives
back exactly the original sequence minus the dragged task), the result
is a permutation of the original, and the call persists, notifies and
returns true. -/
theorem reorderTasks_moves_dragged (s : Store) (a b : String) (di ti : Nat)
    (hab : a ≠ b)
    (ha : findIndex? (fun t => t.id = a) s.tasks = some di)
    (hb : findIndex? (fun t => t.id = b) s.tasks = some ti) :
    ∃ dragged s',
      reorderTasks s a b = (true, s', Effects.both) ∧
      s.tasks.get? di = some dragged ∧
      dragged.id = a ∧
      s'.tasks = insertAt (removeAt s.tasks di) ti dragged ∧
      s'.tasks.get? ti = some dragged ∧
      removeAt s'.tasks ti = removeAt s.tasks di ∧
      s'.tasks.Perm s.tasks := by
  obtain ⟨x, hget, hpx⟩ := findIndex?_get? ha
  have hxa : x.id = a := by simpa using hpx
  have hdi := findIndex?_lt_length ha
  have hti := findIndex?_lt_length hb
  have hle : ti ≤ (removeAt s.tasks di).length := by
    have := @removeAt_length s.tasks di hdi
    omega
  refine ⟨x, ⟨insertAt (removeAt s.tasks di) ti x⟩, ?_, hget, hxa, rfl,
      get?_insertAt_self hle, removeAt_insertAt hle, ?_⟩
  · have hget' : s.tasks[di]? = some x := by
      rw [← List.get?_eq_getElem?]
      exact hget
    simp [reorderTasks, ha, hb, hget']
  · exact (insertAt_perm (removeAt s.tasks di) ti x).trans
      (get?_removeAt_perm hget).symm

/-- Witness for C5: drag the last task of a three-task store onto the
first. -/
theorem reorderTasks_moves_dragged_witness :
    ∃ dragged s',
      reorderTasks ⟨[taskA, taskB, taskC]⟩ "idC" "idA" = (true, s', Effects.both) ∧
      [taskA, taskB, taskC].get? 2 = some dragged ∧
      dragged.id = "idC" ∧
      s'.tasks = insertAt (removeAt [taskA, taskB, taskC] 2) 0 dragged ∧
      s'.tasks.get? 0 = some dragged ∧
      removeAt s'.tasks 0 = removeAt [taskA, taskB, taskC] 2 ∧
      s'.tasks.Perm [taskA, taskB, taskC] :=
  reorderTasks_moves_dragged ⟨[taskA, taskB, taskC]⟩ "idC" "idA" 2 0
    (by decide) (by decide) (by decide)

theorem getD_set_self (l : List (List Task)) (v : List Task) :
    ∀ {i : Nat}, i < l.length → (l.set i v).getD i [] = v := by
  induction l with
  | nil => intro i h; simp at h
  | cons t ts ih =>
    intro i h
    match i with
    | 0 => rfl
    | n + 1 =>
      simp only [List.set_cons_succ, List.getD_cons_succ]
      exact ih (by simpa using Nat.lt_of_succ_lt_succ h)

/-- C3 counterexample: on a concrete store, the value `notifyObservers`
passes to each observer callback is the store's own live array
reference (`callback(tasks)`, `script.js` line 10), and writing through
that reference changes the store's state — the live sequence becomes
empty — contradicting the claim that every task sequence handed outside
the store is an independent copy that external mutation cannot reach. -/
theorem observerArg_aliases_live_tasks :
    observerArg ⟨⟨[[taskA]]⟩, 0⟩ = StoreH.tasksRef ⟨⟨[[taskA]]⟩, 0⟩ ∧
    Heap.read (StoreH.heap ⟨⟨[[taskA]]⟩, 0⟩) (StoreH.tasksRef ⟨⟨[[taskA]]⟩, 0⟩)
      = [taskA] ∧
    Heap.read (Heap.write (StoreH.heap ⟨⟨[[taskA]]⟩, 0⟩) (observerArg ⟨⟨[[taskA]]⟩, 0⟩) [])
      (StoreH.tasksRef ⟨⟨[[taskA]]⟩, 0⟩) = [] :=
  ⟨rfl, rfl, rfl⟩

/-- C3 amended: `getAllTasks` does return an independent snapshot — a
fresh reference, distinct from the live one, holding equal contents,
and writing through it leaves the live sequence unchanged — but each
observer callback is invoked with the live array reference itself, so
an observer mutating its argument does change the store's state. -/
theorem getAllTasks_snapshot_observer_live (s : StoreH) (v : List Task)
    (hwf : s.tasksRef < s.heap.cells.length) :
    (getAllTasksH s).2 ≠ s.tasksRef ∧
    Heap.read (getAllTasksH s).1.heap (getAllTasksH s).2 = Heap.read s.heap s.tasksRef ∧
    (getAllTasksH s).1.tasksRef = s.tasksRef ∧
    Heap.read (Heap.write (getAllTasksH s).1.heap (getAllTasksH s).2 v) s.tasksRef
      = Heap.read s.heap s.tasksRef ∧
    observerArg s = s.tasksRef ∧
    Heap.read (Heap.write s.heap (observerArg s) v) s.tasksRef = v := by
  refine ⟨Nat.ne_of_gt hwf, ?_, rfl, ?_, rfl, ?_⟩
  · show (s.heap.cells ++ [s.heap.read s.tasksRef]).getD s.heap.cells.length []
      = Heap.read s.heap s.tasksRef
    rw [getD_append_length]
  · show ((s.heap.cells ++ [s.heap.read s.tasksRef]).set s.heap.cells.length v).getD
      s.tasksRef [] = Heap.read s.heap s.tasksRef
    rw [getD_set_ne _ _ (Nat.ne_of_gt hwf), getD_append_lt _ _ hwf]
    rfl
  · show (s.heap.cells.set s.tasksRef v).getD s.tasksRef [] = v
    exact getD_set_self _ _ hwf

/-- Witness for the C3 amended theorem on a concrete one-array heap. -/
theorem getAllTasks_snapshot_observer_live_witness :
    (getAllTasksH ⟨⟨[[taskA]]⟩, 0⟩).2 ≠ 0 ∧
    Heap.read (getAllTasksH ⟨⟨[[taskA]]⟩, 0⟩).1.heap (getAllTasksH ⟨⟨[[taskA]]⟩, 0⟩).2
      = Heap.read ⟨[[taskA]]⟩ 0 ∧
    (getAllTasksH ⟨⟨[[taskA]]⟩, 0⟩).1.tasksRef = 0 ∧
    Heap.read (Heap.write (getAllTasksH ⟨⟨[[taskA]]⟩, 0⟩).1.heap
      (getAllTasksH ⟨⟨[[taskA]]⟩, 0⟩).2 [taskB]) 0 = Heap.read ⟨[[taskA]]⟩ 0 ∧
    observerArg ⟨⟨[[taskA]]⟩, 0⟩ = 0 ∧
    Heap.read (Heap.write ⟨[[taskA]]⟩ (observerArg ⟨⟨[[taskA]]⟩, 0⟩) [taskB]) 0
      = [taskB] :=
  getAllTasks_snapshot_observer_live ⟨⟨[[taskA]]⟩, 0⟩ [taskB] (by decide)

end TaskManger
